import Mathlib

/-!
Verification development for the HFC data-correction application (app.py).

The application is a form-filling workflow: two error tables (constraint
errors and logic errors) are loaded from a remote store, filtered to the
selected enumerator and to keys not yet resolved in the session, edited in a
session-scoped pending map, validated for completeness, assembled into
correction records and written back to a remote corrections table.

The embedding below follows the source line by line.  Text is modelled as
`List Char` (the type `Str`), Python ints as `Int` (CPython ints are
unbounded), dicts keyed by strings as association lists in insertion order
(Python dicts preserve insertion order), and sets of strings as lists with
set-style insertion.  The remote store is modelled as an optional table
content plus a version counter; network success is an oracle boolean.
-/

namespace HFC

/-- Text is a list of characters. -/
abbrev Str := List Char

/-- Whether `pat` is a prefix of `s` (models Python string startswith,
used to build substring containment). -/
def startsWith : Str → Str → Bool
  | [], _ => true
  | _ :: _, [] => false
  | p :: ps, c :: cs => p == c && startsWith ps cs

/-- Whether `pat` occurs as a contiguous substring of `s`; models the Python
expression pat in s on strings. -/
def containsSub (pat : Str) : Str → Bool
  | [] => startsWith pat []
  | c :: cs => startsWith pat (c :: cs) || containsSub pat cs

/-- Lower-case a text character by character; models str.lower for the ASCII
keywords min and max that the code searches for. -/
def lowerStr (s : Str) : Str := s.map Char.toLower

/-- Strip leading and trailing whitespace; models str.strip(). -/
def trim (s : Str) : Str :=
  ((s.dropWhile Char.isWhitespace).reverse.dropWhile Char.isWhitespace).reverse

/-- Numeric value of a run of decimal digits (most significant first). -/
def digitsToNat (ds : Str) : Nat := ds.foldl (fun acc c => 10 * acc + (c.toNat - 48)) 0

/-- Helper for `digitRuns`: `cur` holds the current digit run, reversed. -/
def digitRunsAux (cur : Str) : Str → List Str
  | [] => if cur.isEmpty then [] else [cur.reverse]
  | c :: rest =>
    if c.isDigit then digitRunsAux (c :: cur) rest
    else if cur.isEmpty then digitRunsAux [] rest
    else cur.reverse :: digitRunsAux [] rest

/-- The maximal runs of decimal digits in a text, in order; models
re.findall applied with the pattern one-or-more-digits. -/
def digitRuns (s : Str) : List Str := digitRunsAux [] s

/-- The integer literals of a text, in order of appearance; models
re.findall followed by int() on each run (int never fails on a digit run). -/
def reNumbers (s : Str) : List Nat := (digitRuns s).map digitsToNat

/-- Bound inference from a constraint rule text (app.py lines 282-295).
Defaults are (0, 100000).  If the lowered text contains max, the last
integer literal of the whole text becomes the max bound; if it contains min,
the same last literal becomes the min bound.  The try/except around the body
can never fire because int() on a digit run always succeeds. -/
def infer_bounds (t : Str) : Int × Int :=
  let low := lowerStr t
  let max_val : Int :=
    if containsSub ("max".toList) low then
      match (reNumbers t).getLast? with
      | some n => (n : Int)
      | none => 100000
    else 100000
  let min_val : Int :=
    if containsSub ("min".toList) low then
      match (reNumbers t).getLast? with
      | some n => (n : Int)
      | none => 0
    else 0
  (min_val, max_val)

/-- CPython int() applied to a stripped text: optional sign followed by a
non-empty run of digits; anything else raises, modelled as none.
(Underscore separators and non-ASCII digits are out of scope for the data
this program handles.) -/
def pyIntCore : Str → Option Int
  | [] => none
  | '+' :: ds =>
    if ds.isEmpty then none
    else if ds.all Char.isDigit then some (digitsToNat ds) else none
  | '-' :: ds =>
    if ds.isEmpty then none
    else if ds.all Char.isDigit then some (-(digitsToNat ds : Int)) else none
  | c :: ds =>
    if (c :: ds).all Char.isDigit then some (digitsToNat (c :: ds)) else none

/-- int() on a raw value text (int strips surrounding whitespace itself). -/
def pyInt (s : Str) : Option Int := pyIntCore (trim s)

/-- The displayed current value for a constraint error (app.py lines
297-305): the reported value coerced with int(), lower-clamped to min_val,
then upper-clamped to max_val only when max_val is truthy (nonzero); a
coercion failure falls into the except branch which yields min_val. -/
def current_value (valueText : Str) (min_val max_val : Int) : Int :=
  match pyInt valueText with
  | none => min_val
  | some v =>
    let v1 := if v < min_val then min_val else v
    if max_val ≠ 0 ∧ v1 > max_val then max_val else v1

/-- A row of the constraints error table (columns of constraints.csv used by
the code).  The column named variable in the source is `varName` here
because variable is reserved in Lean. -/
structure ConstraintRow where
  username : Str
  supervisor : Str
  woreda : Str
  kebele : Str
  farmer_name : Str
  phone_no : Str
  subdate : Str
  unique_id : Str
  varName : Str
  value : Str
  constraint : Str
deriving DecidableEq, Repr

/-- A row of the logic error table (columns of logic.csv used by the code);
`trosterValue` is the column Troster Value. -/
structure LogicRow where
  username : Str
  supervisor : Str
  woreda : Str
  kebele : Str
  farmer_name : Str
  phone_no : Str
  subdate : Str
  unique_id : Str
  varName : Str
  value : Str
  trosterValue : Str
deriving DecidableEq, Repr

/-- The error key of a constraint row: constraint_{unique_id}_{variable}. -/
def constraintKey (r : ConstraintRow) : Str :=
  "constraint_".toList ++ r.unique_id ++ "_".toList ++ r.varName

/-- The error key of a logic row: logic_{unique_id}_{variable}. -/
def logicKey (r : LogicRow) : Str :=
  "logic_".toList ++ r.unique_id ++ "_".toList ++ r.varName

/-- The error_data payload stored in a pending correction.  In the source it
is the pandas row; the dict field error_type is always the tag of this
payload (both creation sites, app.py lines 325-330 and 369-374, store the
literal matching the row kind). -/
inductive ErrorData where
  | constraintE (r : ConstraintRow)
  | logicE (r : LogicRow)
deriving DecidableEq, Repr

/-- The variable column of the payload row. -/
def ErrorData.varNameOf : ErrorData → Str
  | .constraintE r => r.varName
  | .logicE r => r.varName

/-- One entry of st.session_state.all_corrections_data: the key, the source
row, the edited value and the edited explanation text. -/
structure PendingCorrection where
  error_key : Str
  error_data : ErrorData
  correct_value : Int
  explanation : Str
deriving DecidableEq, Repr

/-- A persisted correction record with the exact columns assembled by the
save handler (app.py lines 421-459). -/
structure CorrectionRecord where
  error_type : Str
  username : Str
  supervisor : Str
  woreda : Str
  kebele : Str
  farmer_name : Str
  phone_no : Str
  subdate : Str
  unique_id : Str
  varName : Str
  original_value : Str
  reference_value : Str
  correct_value : Int
  explanation : Str
  corrected_by : Str
  correction_date : Str
  correction_timestamp : Str
deriving DecidableEq, Repr

/-- Session state: st.session_state.corrected_errors (a set of keys,
modelled as a list with set-style insertion) and
st.session_state.all_corrections_data (a dict in insertion order). -/
structure SessionState where
  corrected_errors : List Str
  all_corrections_data : List PendingCorrection
deriving DecidableEq, Repr

/-- Set-style insertion into the resolved set; models set.add. -/
def addKey (s : List Str) (k : Str) : List Str :=
  if s.contains k then s else k :: s

/-- Filtering of one source table to the selected enumerator and to rows
whose key is not in the resolved set (app.py lines 213-219). -/
def outstandingC (allC : List ConstraintRow) (enum : Str) (resolved : List Str) :
    List ConstraintRow :=
  (allC.filter (fun r => r.username == enum)).filter
    (fun r => !(resolved.contains (constraintKey r)))

/-- Same filtering for the logic table (app.py lines 214, 220-222). -/
def outstandingL (allL : List LogicRow) (enum : Str) (resolved : List Str) :
    List LogicRow :=
  (allL.filter (fun r => r.username == enum)).filter
    (fun r => !(resolved.contains (logicKey r)))

/-- Whether a pending entry counts as completed: its explanation is truthy
and strips to a non-empty text (app.py line 389). -/
def explanationComplete (p : PendingCorrection) : Bool :=
  !(trim p.explanation).isEmpty

/-- The label appended to missing_explanations for an incomplete entry
(app.py lines 392-399): the kind is chosen by substring containment of
constraint in the error key. -/
def missingLabel (p : PendingCorrection) : Str :=
  let kind :=
    if containsSub ("constraint".toList) p.error_key then "Constraint".toList
    else "Logic".toList
  kind ++ " error for ".toList ++ p.error_data.varNameOf

/-- The loop of validate_all_corrections over the pending dict in insertion
order, returning (completed_corrections, missing_explanations). -/
def validateScan : List PendingCorrection → Nat × List Str
  | [] => (0, [])
  | p :: rest =>
    let (c, m) := validateScan rest
    if explanationComplete p then (c + 1, m) else (c, missingLabel p :: m)

/-- validate_all_corrections (app.py lines 383-401): total is the number of
outstanding rows of both tables; completed and missing come from the scan of
the pending dict; ok means completed equals total. -/
def validate_all_corrections (pending : List PendingCorrection)
    (outC : List ConstraintRow) (outL : List LogicRow) :
    Bool × List Str × Nat × Nat :=
  let total := outC.length + outL.length
  let (completed, missing) := validateScan pending
  (completed == total, missing, completed, total)

/-- Assembly of one correction record from a pending entry (app.py lines
417-459): the branch is chosen by the stored error_type, which is the tag of
the payload; the reference_value is the constraint rule text or the Troster
Value; the explanation is stored as edited, untrimmed. -/
def mkRecord (p : PendingCorrection) (enum : Str) (date ts : Str) : CorrectionRecord :=
  match p.error_data with
  | .constraintE r =>
    ⟨"constraint".toList, r.username, r.supervisor, r.woreda, r.kebele,
      r.farmer_name, r.phone_no, r.subdate, r.unique_id, r.varName,
      r.value, r.constraint, p.correct_value, p.explanation, enum, date, ts⟩
  | .logicE r =>
    ⟨"logic".toList, r.username, r.supervisor, r.woreda, r.kebele,
      r.farmer_name, r.phone_no, r.subdate, r.unique_id, r.varName,
      r.value, r.trosterValue, p.correct_value, p.explanation, enum, date, ts⟩

/-- Outcome of one press of the save button. -/
inductive SaveOutcome where
  | blocked (missing : List Str)
  | saved
  | failed
  | noRecords
deriving DecidableEq, Repr

/-- The save button handler (app.py lines 403-478) as a function of the
session state, the outstanding rows computed earlier in the same script run,
the selected enumerator, the clock outputs and a write-success oracle.
Returns the new session state, the rows handed to the ledger write (none if
no write was attempted) and the outcome.  Faithful ordering: the validity
gate stops first; then every pending entry is turned into a record and its
key added to corrected_errors; only then is the write attempted; on success
the pending dict is cleared, on failure it is kept. -/
def saveHandler (st : SessionState) (outC : List ConstraintRow)
    (outL : List LogicRow) (enum : Str) (date ts : Str) (writeOk : Bool) :
    SessionState × Option (List CorrectionRecord) × SaveOutcome :=
  let v := validate_all_corrections st.all_corrections_data outC outL
  if v.1 then
    let corrections := st.all_corrections_data.map (fun p => mkRecord p enum date ts)
    let resolved2 := st.all_corrections_data.foldl
      (fun acc p => addKey acc p.error_key) st.corrected_errors
    if corrections.isEmpty then
      (⟨resolved2, st.all_corrections_data⟩, none, .noRecords)
    else if writeOk then
      (⟨resolved2, []⟩, some corrections, .saved)
    else
      (⟨resolved2, st.all_corrections_data⟩, some corrections, .failed)
  else
    (st, none, .blocked v.2.1)

/-- The remote corrections table: the rows its tabular content decodes to,
plus a version counter standing for the git blob sha. -/
structure LedgerStore where
  content : List CorrectionRecord
  version : Nat
deriving DecidableEq, Repr

/-- save_corrections_to_github (app.py lines 68-109) at the row level.  The
payload content is the serialization of corrections_df, which holds exactly
the new rows; the GET of the existing file only supplies the sha forwarded
in the PUT payload.  The contents API PUT replaces the file body with the
payload content.  putOk is the oracle for a 200/201 response; any failure or
exception returns false and leaves the store as it was. -/
def save_corrections_to_github (store : Option LedgerStore)
    (corrections : List CorrectionRecord) (putOk : Bool) :
    Option LedgerStore × Bool :=
  let payloadContent := corrections
  let sha : Nat := match store with
    | some s => s.version
    | none => 0
  if putOk then (some ⟨payloadContent, sha + 1⟩, true) else (store, false)

/-- One script run rendering of the correction forms (app.py lines 244-376):
for every outstanding row of the selected enumerator, the pending dict entry
for its key is overwritten with the current widget value and explanation
text (dict assignment keeps the position of an existing key and appends a
new key). -/
def upsert (pending : List PendingCorrection) (p : PendingCorrection) :
    List PendingCorrection :=
  if pending.any (fun q => q.error_key == p.error_key) then
    pending.map (fun q => if q.error_key == p.error_key then p else q)
  else pending ++ [p]

/-- The render phase of a script run: constraint rows first, then logic
rows, upserting one pending entry per outstanding row.  `vals` and `exps`
give the current widget contents keyed by error key. -/
def renderEntries (st : SessionState) (allC : List ConstraintRow)
    (allL : List LogicRow) (enum : Str) (vals : Str → Int) (exps : Str → Str) :
    SessionState :=
  let outC := outstandingC allC enum st.corrected_errors
  let outL := outstandingL allL enum st.corrected_errors
  let pend1 := outC.foldl
    (fun acc r => upsert acc ⟨constraintKey r, .constraintE r,
      vals (constraintKey r), exps (constraintKey r)⟩) st.all_corrections_data
  let pend2 := outL.foldl
    (fun acc r => upsert acc ⟨logicKey r, .logicE r,
      vals (logicKey r), exps (logicKey r)⟩) pend1
  ⟨st.corrected_errors, pend2⟩

/-- Reachable session states: the initial state has empty resolved set and
empty pending dict (app.py lines 130-133); each later script run renders the
forms for some selected enumerator with some widget contents, and may end
with a press of the save button, whose outstanding rows are the ones
computed in that same run. -/
inductive Reachable (allC : List ConstraintRow) (allL : List LogicRow) :
    SessionState → Prop
  | init : Reachable allC allL ⟨[], []⟩
  | render (st : SessionState) (enum : Str) (vals : Str → Int) (exps : Str → Str) :
      Reachable allC allL st →
      Reachable allC allL (renderEntries st allC allL enum vals exps)
  | saveClick (st : SessionState) (enum : Str) (vals : Str → Int)
      (exps : Str → Str) (date ts : Str) (writeOk : Bool) :
      Reachable allC allL st →
      Reachable allC allL
        (saveHandler (renderEntries st allC allL enum vals exps)
          (outstandingC allC enum st.corrected_errors)
          (outstandingL allL enum st.corrected_errors)
          enum date ts writeOk).1

/-- The numbers shown by the logic error form (app.py lines 343-359):
difference between reported and system value, the lower and upper widget
bounds and the initial widget value.  The int() coercions of value and
Troster Value are unguarded, so an unparsable field raises, modelled as
none. -/
def renderLogic (d : LogicRow) : Option (Int × Int × Int × Int) :=
  match pyInt d.value, pyInt d.trosterValue with
  | some fv, some tv => some (fv - tv, 0, max fv tv * 2, fv)
  | _, _ => none

/-- The numbers shown by the constraint error form (app.py lines 281-315):
inferred bounds and clamped current value.  Both coercion sites sit inside
try/except with defaults, so this path is total: it returns some output for
every row. -/
def renderConstraint (r : ConstraintRow) : Option (Int × Int × Int) :=
  let b := infer_bounds r.constraint
  some (b.1, b.2, current_value r.value b.1 b.2)

/-! ### Example data shared by concrete witnesses and counterexamples -/

/-- A constraint error row used in concrete scenarios. -/
def exC : ConstraintRow :=
  ⟨"u".toList, "s".toList, "w".toList, "k".toList, "f".toList, "p".toList,
    "d".toList, "1".toList, "v".toList, "5".toList, "max 10".toList⟩

/-- A logic error row with parsable values. -/
def exL : LogicRow :=
  ⟨"u".toList, "s".toList, "w".toList, "k".toList, "f".toList, "p".toList,
    "d".toList, "2".toList, "w2".toList, "40".toList, "25".toList⟩

/-- A logic error row whose reported value is not integer-parsable. -/
def exLbad : LogicRow :=
  ⟨"u".toList, "s".toList, "w".toList, "k".toList, "f".toList, "p".toList,
    "d".toList, "3".toList, "w3".toList, "abc".toList, "25".toList⟩

/-- A completed pending entry for `exC`. -/
def exPend : PendingCorrection :=
  ⟨constraintKey exC, .constraintE exC, 7, "fixed".toList⟩

/-- A pending entry whose explanation carries surrounding whitespace. -/
def exPadded : PendingCorrection :=
  ⟨constraintKey exC, .constraintE exC, 7, " ok ".toList⟩

/-- A persisted record already present in the store in scenarios. -/
def exRecOld : CorrectionRecord := mkRecord exPend ("u".toList) [] []

/-- A fresh record committed in scenarios. -/
def exRecNew : CorrectionRecord :=
  mkRecord ⟨logicKey exL, .logicE exL, 30, "called farmer".toList⟩ ("u".toList) [] []

/-! ### Supporting lemmas -/

/-- The validation loop computes the completed count and the missing list as
a filter over the pending entries, in order. -/
theorem validateScan_eq (l : List PendingCorrection) :
    validateScan l = ((l.filter explanationComplete).length,
      (l.filter (fun p => !explanationComplete p)).map missingLabel) := by
  induction l with
  | nil => rfl
  | cons p rest ih =>
    cases h : explanationComplete p <;>
      simp [validateScan, ih, List.filter_cons, h]

/-- `addKey` keeps every key already present. -/
theorem contains_addKey_of_contains (s : List Str) (k e : Str)
    (h : s.contains k = true) : (addKey s e).contains k = true := by
  unfold addKey
  split
  · exact h
  · have hk : k ∈ s := by simpa using h
    simp [List.contains_cons]
    exact Or.inr hk

/-- `addKey` makes its argument present. -/
theorem contains_addKey_self (s : List Str) (k : Str) :
    (addKey s k).contains k = true := by
  unfold addKey
  split
  · assumption
  · simp [List.contains_cons]

/-- Folding `addKey` over pending entries keeps every key already present. -/
theorem contains_foldl_addKey_of_contains (l : List PendingCorrection)
    (acc : List Str) (k : Str) (h : acc.contains k = true) :
    (l.foldl (fun a p => addKey a p.error_key) acc).contains k = true := by
  induction l generalizing acc with
  | nil => exact h
  | cons q rest ih =>
    exact ih (addKey acc q.error_key) (contains_addKey_of_contains acc k q.error_key h)

/-- Folding `addKey` over pending entries makes each entry key present. -/
theorem contains_foldl_addKey_of_mem (l : List PendingCorrection)
    (acc : List Str) (p : PendingCorrection) (hp : p ∈ l) :
    (l.foldl (fun a q => addKey a q.error_key) acc).contains p.error_key = true := by
  induction l generalizing acc with
  | nil => cases hp
  | cons q rest ih =>
    rcases List.mem_cons.mp hp with h | h
    · subst h
      exact contains_foldl_addKey_of_contains rest _ _
        (contains_addKey_self acc p.error_key)
    · exact ih _ h

/-- Membership in the filtered constraint table. -/
theorem mem_outstandingC (allC : List ConstraintRow) (enum : Str)
    (resolved : List Str) (r : ConstraintRow) :
    r ∈ outstandingC allC enum resolved ↔
      r ∈ allC ∧ (r.username == enum) = true ∧
        resolved.contains (constraintKey r) = false := by
  simp [outstandingC, List.mem_filter]
  tauto

/-- Membership in the filtered logic table. -/
theorem mem_outstandingL (allL : List LogicRow) (enum : Str)
    (resolved : List Str) (r : LogicRow) :
    r ∈ outstandingL allL enum resolved ↔
      r ∈ allL ∧ (r.username == enum) = true ∧
        resolved.contains (logicKey r) = false := by
  simp [outstandingL, List.mem_filter]
  tauto

/-- A text containing no digit has no digit runs. -/
theorem digitRuns_eq_nil (s : Str) (h : ∀ c ∈ s, c.isDigit = false) :
    digitRuns s = [] := by
  unfold digitRuns
  induction s with
  | nil => rfl
  | cons c rest ih =>
    have hc : c.isDigit = false := h c (List.mem_cons_self c rest)
    simp only [digitRunsAux, hc, Bool.false_eq_true, if_false, List.isEmpty_nil, if_true]
    exact ih (fun d hd => h d (List.mem_cons_of_mem c hd))

/-- When validation passes, the completed count over the pending map equals
the outstanding total. -/
theorem completed_eq_total_of_valid (pending : List PendingCorrection)
    (outC : List ConstraintRow) (outL : List LogicRow)
    (h : (validate_all_corrections pending outC outL).1 = true) :
    (pending.filter explanationComplete).length = outC.length + outL.length := by
  unfold validate_all_corrections at h
  rw [validateScan_eq] at h
  simpa using h

/-- With a valid pending map and at least one outstanding row, the pending
map cannot be empty. -/
theorem pending_ne_nil_of_valid_pos (pending : List PendingCorrection)
    (outC : List ConstraintRow) (outL : List LogicRow)
    (hval : (validate_all_corrections pending outC outL).1 = true)
    (htot : 0 < outC.length + outL.length) : pending ≠ [] := by
  intro hnil
  have h := completed_eq_total_of_valid pending outC outL hval
  rw [hnil] at h
  simp at h
  omega

/-- Shape of the save handler when validation passes and the pending map is
non-empty: every entry becomes a record, every key is added to the resolved
set, the rows are handed to the write, and the pending map is cleared
exactly when the write succeeds. -/
theorem saveHandler_eq_of_valid (st : SessionState) (outC : List ConstraintRow)
    (outL : List LogicRow) (enum date ts : Str) (writeOk : Bool)
    (hval : (validate_all_corrections st.all_corrections_data outC outL).1 = true)
    (hne : st.all_corrections_data ≠ []) :
    saveHandler st outC outL enum date ts writeOk =
      (⟨st.all_corrections_data.foldl (fun a p => addKey a p.error_key)
          st.corrected_errors,
        if writeOk then [] else st.all_corrections_data⟩,
       some (st.all_corrections_data.map (fun p => mkRecord p enum date ts)),
       if writeOk then .saved else .failed) := by
  have hmap : (st.all_corrections_data.map
      (fun p => mkRecord p enum date ts)).isEmpty = false := by
    cases hd : st.all_corrections_data with
    | nil => exact absurd hd hne
    | cons p rest => simp [hd]
  simp only [saveHandler, hval, hmap, if_true, if_false, Bool.false_eq_true]
  cases writeOk <;> simp

/-- Shape of the save handler when validation fails: refused, state
untouched, nothing written. -/
theorem saveHandler_eq_of_invalid (st : SessionState) (outC : List ConstraintRow)
    (outL : List LogicRow) (enum date ts : Str) (writeOk : Bool)
    (hval : (validate_all_corrections st.all_corrections_data outC outL).1 = false) :
    saveHandler st outC outL enum date ts writeOk =
      (st, none,
        .blocked (validate_all_corrections st.all_corrections_data outC outL).2.1) := by
  simp only [saveHandler, hval, Bool.false_eq_true, if_false]

/-! ### Claims -/

/-- C5: for every rule text containing both min and max (case-insensitive)
and at least one integer literal, infer_bounds returns min and max both
equal to the last integer literal of the text; for every rule text with no
digits it returns the default bounds (0, 100000). -/
theorem c5_infer_bounds (t : Str) :
    (containsSub ("min".toList) (lowerStr t) = true →
     containsSub ("max".toList) (lowerStr t) = true →
     ∀ n : Nat, (reNumbers t).getLast? = some n →
       infer_bounds t = ((n : Int), (n : Int))) ∧
    ((∀ c ∈ t, c.isDigit = false) → infer_bounds t = (0, 100000)) := by
  constructor
  · intro hmin hmax n hlast
    simp only [infer_bounds]
    rw [hmin, hmax, hlast]
    simp
  · intro hnod
    have h1 : digitRuns t = [] := digitRuns_eq_nil t hnod
    simp [infer_bounds, reNumbers, h1]

/-- C5 witness: concrete rule texts exercising both branches. -/
theorem c5_infer_bounds_witness :
    containsSub ("min".toList) (lowerStr ("Min 10, Max 500".toList)) = true ∧
    infer_bounds ("Min 10, Max 500".toList) = (500, 500) ∧
    infer_bounds ("value must be positive".toList) = (0, 100000) := by
  refine ⟨by decide, ?_, ?_⟩
  · exact (c5_infer_bounds ("Min 10, Max 500".toList)).1 (by decide) (by decide)
      500 (by decide)
  · exact (c5_infer_bounds ("value must be positive".toList)).2 (by decide)

/-- C6 counterexample: for the rule text max 0 the inferred bounds are
(0, 0), yet the reported value 5 is displayed unclamped, because the code
guards the upper clamp by the truthiness of max_val and 0 is falsy; so the
displayed value is not within [min, max] when max = 0. -/
theorem c6_counterexample :
    infer_bounds ("max 0".toList) = (0, 0) ∧
    current_value ("5".toList) 0 0 = 5 ∧
    ¬((5 : Int) ≤ 0) := by decide

/-- C6 amended: the displayed value is the reported value coerced with
int(); coercion failure defaults to min; the value is lower-clamped to min
always but upper-clamped to max only when max is nonzero; consequently
min ≤ current ≤ max holds whenever min ≤ max and max ≠ 0. -/
theorem c6_clamp_amended (s : Str) (min_val max_val : Int) :
    (pyInt s = none → current_value s min_val max_val = min_val) ∧
    (∀ v : Int, pyInt s = some v →
      current_value s min_val max_val =
        (if max_val ≠ 0 ∧ (if v < min_val then min_val else v) > max_val
         then max_val else if v < min_val then min_val else v)) ∧
    (min_val ≤ max_val → max_val ≠ 0 →
      min_val ≤ current_value s min_val max_val ∧
      current_value s min_val max_val ≤ max_val) := by
  refine ⟨?_, ?_, ?_⟩
  · intro h
    simp [current_value, h]
  · intro v h
    simp [current_value, h]
  · intro hle hne
    unfold current_value
    cases hp : pyInt s with
    | none => exact ⟨le_refl _, hle⟩
    | some v =>
      simp only []
      split_ifs with h1 h2 <;> omega

/-- C6 amended witness: a failing coercion defaults to min; a parsable value
stays within the bounds. -/
theorem c6_clamp_amended_witness :
    pyInt ("abc".toList) = none ∧
    current_value ("abc".toList) 2 10 = 2 ∧
    (2 : Int) ≤ current_value ("7".toList) 2 10 ∧
    current_value ("7".toList) 2 10 ≤ 10 := by
  refine ⟨by decide, (c6_clamp_amended ("abc".toList) 2 10).1 (by decide), ?_, ?_⟩
  · exact ((c6_clamp_amended ("7".toList) 2 10).2.2 (by decide) (by decide)).1
  · exact ((c6_clamp_amended ("7".toList) 2 10).2.2 (by decide) (by decide)).2

/-- C4 counterexample: one outstanding constraint row and an empty pending
map give ok = false with an EMPTY missing list, because the loop walks the
pending dict and never sees outstanding keys that have no pending entry. -/
theorem c4_counterexample :
    (validate_all_corrections [] [exC] []).1 = false ∧
    (validate_all_corrections [] [exC] []).2.1 = [] := by decide

/-- C4 amended: ok = true iff the completed count over the pending map
equals the outstanding total; the missing list holds one label per pending
entry lacking a trimmed non-empty explanation — outstanding keys with no
pending entry are never listed, so missing can be empty while ok = false;
completed and total are the filter count and the outstanding row count. -/
theorem c4_validate_amended (pending : List PendingCorrection)
    (outC : List ConstraintRow) (outL : List LogicRow) :
    ((validate_all_corrections pending outC outL).1 = true ↔
      (pending.filter explanationComplete).length = outC.length + outL.length) ∧
    (validate_all_corrections pending outC outL).2.1 =
      (pending.filter (fun p => !explanationComplete p)).map missingLabel ∧
    ((validate_all_corrections pending outC outL).2.1 = [] ↔
      ∀ p ∈ pending, explanationComplete p = true) ∧
    (validate_all_corrections pending outC outL).2.2.1 =
      (pending.filter explanationComplete).length ∧
    (validate_all_corrections pending outC outL).2.2.2 =
      outC.length + outL.length := by
  unfold validate_all_corrections
  rw [validateScan_eq]
  refine ⟨by simp, by simp, ?_, by simp, by simp⟩
  simp [List.filter_eq_nil_iff]

/-- C4 amended witness: the concrete instance of the counterexample seen
through the amended statement. -/
theorem c4_validate_amended_witness :
    ((validate_all_corrections [] [exC] []).1 = true ↔ 0 = 1) ∧
    (validate_all_corrections [] [exC] []).2.1 = [] := by
  have h := c4_validate_amended [] [exC] []
  refine ⟨?_, h.2.1⟩
  simpa using h.1

/-- C7: whenever validation reports ok = false, the save is refused with the
missing list surfaced: the session state is returned unchanged, no record is
assembled and nothing is handed to the ledger write. -/
theorem c7_invalid_blocks (st : SessionState) (outC : List ConstraintRow)
    (outL : List LogicRow) (enum date ts : Str) (writeOk : Bool)
    (hval : (validate_all_corrections st.all_corrections_data outC outL).1 = false) :
    saveHandler st outC outL enum date ts writeOk =
      (st, none,
        .blocked (validate_all_corrections st.all_corrections_data outC outL).2.1) :=
  saveHandler_eq_of_invalid st outC outL enum date ts writeOk hval

/-- C7 witness: with one outstanding row and no pending entry the save is
blocked and the state is unchanged. -/
theorem c7_invalid_blocks_witness :
    (validate_all_corrections ([] : List PendingCorrection) [exC] []).1 = false ∧
    saveHandler ⟨[], []⟩ [exC] [] ("u".toList) [] [] true =
      (⟨[], []⟩, none, .blocked []) := by
  refine ⟨by decide, ?_⟩
  have h := c7_invalid_blocks ⟨[], []⟩ [exC] [] ("u".toList) [] [] true (by decide)
  rw [h]
  decide

/-- C3 counterexample: a pending entry whose explanation is padded with
whitespace passes validation, yet the committed record stores the raw,
untrimmed text, not the trimmed text the claim requires. -/
theorem c3_counterexample :
    (validate_all_corrections [exPadded] [exC] []).1 = true ∧
    (saveHandler ⟨[], [exPadded]⟩ [exC] [] ("u".toList) [] [] true).2.1 =
      some [mkRecord exPadded ("u".toList) [] []] ∧
    (mkRecord exPadded ("u".toList) [] []).explanation = " ok ".toList ∧
    trim (" ok ".toList) = "ok".toList ∧
    (" ok ".toList : Str) ≠ "ok".toList := by decide

/-- C3 amended: when validation passes and the pending map is non-empty,
committing hands the ledger exactly one CorrectionRecord per pending-map
entry (the map over the pending dict), with correct_value the last edited
value and explanation the raw, untrimmed last-edited text. -/
theorem c3_commit_amended (st : SessionState) (outC : List ConstraintRow)
    (outL : List LogicRow) (enum date ts : Str) (writeOk : Bool)
    (hval : (validate_all_corrections st.all_corrections_data outC outL).1 = true)
    (hne : st.all_corrections_data ≠ []) :
    (saveHandler st outC outL enum date ts writeOk).2.1 =
      some (st.all_corrections_data.map (fun p => mkRecord p enum date ts)) ∧
    ∀ p ∈ st.all_corrections_data,
      (mkRecord p enum date ts).correct_value = p.correct_value ∧
      (mkRecord p enum date ts).explanation = p.explanation := by
  constructor
  · rw [saveHandler_eq_of_valid st outC outL enum date ts writeOk hval hne]
  · intro p hp
    cases hd : p.error_data <;> simp [mkRecord, hd]

/-- C3 amended witness: one completed pending entry yields exactly its one
record with the edited value and raw text. -/
theorem c3_commit_amended_witness :
    (saveHandler ⟨[], [exPend]⟩ [exC] [] ("u".toList) [] [] true).2.1 =
      some [mkRecord exPend ("u".toList) [] []] ∧
    (mkRecord exPend ("u".toList) [] []).correct_value = 7 ∧
    (mkRecord exPend ("u".toList) [] []).explanation = "fixed".toList := by
  have h := c3_commit_amended ⟨[], [exPend]⟩ [exC] [] ("u".toList) [] [] true
    (by decide) (by decide)
  have h2 := h.2 exPend (by decide)
  exact ⟨h.1, by decide, by decide⟩

/-- C2 counterexample: with one completed pending entry for the one
outstanding row, a save whose ledger write fails leaves the committed key in
the resolved set; the row is then filtered out of the outstanding
computation, so a retried save is blocked by validation (completed = 1
against total = 0) and cannot commit the edits. -/
theorem c2_counterexample :
    (saveHandler ⟨[], [exPend]⟩ [exC] [] ("u".toList) [] [] false).2.2 = .failed ∧
    (saveHandler ⟨[], [exPend]⟩ [exC] [] ("u".toList) [] []
      false).1.corrected_errors.contains (constraintKey exC) = true ∧
    outstandingC [exC] ("u".toList) [constraintKey exC] = [] ∧
    (saveHandler ⟨[constraintKey exC], [exPend]⟩ [] [] ("u".toList) [] []
      true).2.2 = .blocked [] := by decide

/-- C2 amended: if the ledger write fails, the pending edits do remain in
session memory, but every committed key has already been added to the
resolved set; for a pending map covering the outstanding rows, the next
outstanding computation is therefore empty, and a retried save is blocked by
validation, so the batch cannot be re-committed in this session. -/
theorem c2_failed_write_amended (st : SessionState) (allC : List ConstraintRow)
    (allL : List LogicRow) (enum date ts date2 ts2 : Str) (writeOk2 : Bool)
    (s1 : SessionState)
    (hval : (validate_all_corrections st.all_corrections_data
        (outstandingC allC enum st.corrected_errors)
        (outstandingL allL enum st.corrected_errors)).1 = true)
    (htot : 0 < (outstandingC allC enum st.corrected_errors).length +
        (outstandingL allL enum st.corrected_errors).length)
    (hcovC : ∀ r ∈ outstandingC allC enum st.corrected_errors,
        ∃ p ∈ st.all_corrections_data, p.error_key = constraintKey r)
    (hcovL : ∀ r ∈ outstandingL allL enum st.corrected_errors,
        ∃ p ∈ st.all_corrections_data, p.error_key = logicKey r)
    (hs1 : (saveHandler st (outstandingC allC enum st.corrected_errors)
        (outstandingL allL enum st.corrected_errors) enum date ts false).1 = s1) :
    s1.all_corrections_data = st.all_corrections_data ∧
    (∀ p ∈ st.all_corrections_data, s1.corrected_errors.contains p.error_key = true) ∧
    outstandingC allC enum s1.corrected_errors = [] ∧
    outstandingL allL enum s1.corrected_errors = [] ∧
    (saveHandler s1 (outstandingC allC enum s1.corrected_errors)
        (outstandingL allL enum s1.corrected_errors) enum date2 ts2 writeOk2).2.2 =
      .blocked (validate_all_corrections s1.all_corrections_data [] []).2.1 := by
  have hne : st.all_corrections_data ≠ [] :=
    pending_ne_nil_of_valid_pos _ _ _ hval htot
  rw [saveHandler_eq_of_valid st _ _ enum date ts false hval hne] at hs1
  simp only [if_neg (by simp : ¬(false = true))] at hs1
  have hres : s1.corrected_errors =
      st.all_corrections_data.foldl (fun a p => addKey a p.error_key)
        st.corrected_errors := by rw [← hs1]
  have hpend : s1.all_corrections_data = st.all_corrections_data := by rw [← hs1]
  have hmem : ∀ p ∈ st.all_corrections_data,
      s1.corrected_errors.contains p.error_key = true := by
    intro p hp
    rw [hres]
    exact contains_foldl_addKey_of_mem _ _ _ hp
  have houtC : outstandingC allC enum s1.corrected_errors = [] := by
    apply List.eq_nil_of_length_eq_zero
    by_contra hlen
    have : ∃ r, r ∈ outstandingC allC enum s1.corrected_errors := by
      cases hc : outstandingC allC enum s1.corrected_errors with
      | nil => exact absurd (by rw [hc]; rfl) hlen
      | cons a l => exact ⟨a, List.mem_cons_self a l⟩
    obtain ⟨r, hr⟩ := this
    obtain ⟨hrAll, hrUser, hrNot⟩ := (mem_outstandingC _ _ _ _).mp hr
    by_cases hold : st.corrected_errors.contains (constraintKey r) = true
    · have : s1.corrected_errors.contains (constraintKey r) = true := by
        rw [hres]
        exact contains_foldl_addKey_of_contains _ _ _ hold
      rw [this] at hrNot
      cases hrNot
    · have hrOut : r ∈ outstandingC allC enum st.corrected_errors :=
        (mem_outstandingC _ _ _ _).mpr
          ⟨hrAll, hrUser, Bool.not_eq_true _ ▸ (by simpa using hold)⟩
      obtain ⟨p, hp, hkey⟩ := hcovC r hrOut
      have : s1.corrected_errors.contains (constraintKey r) = true := by
        rw [← hkey]
        exact hmem p hp
      rw [this] at hrNot
      cases hrNot
  have houtL : outstandingL allL enum s1.corrected_errors = [] := by
    apply List.eq_nil_of_length_eq_zero
    by_contra hlen
    have : ∃ r, r ∈ outstandingL allL enum s1.corrected_errors := by
      cases hc : outstandingL allL enum s1.corrected_errors with
      | nil => exact absurd (by rw [hc]; rfl) hlen
      | cons a l => exact ⟨a, List.mem_cons_self a l⟩
    obtain ⟨r, hr⟩ := this
    obtain ⟨hrAll, hrUser, hrNot⟩ := (mem_outstandingL _ _ _ _).mp hr
    by_cases hold : st.corrected_errors.contains (logicKey r) = true
    · have : s1.corrected_errors.contains (logicKey r) = true := by
        rw [hres]
        exact contains_foldl_addKey_of_contains _ _ _ hold
      rw [this] at hrNot
      cases hrNot
    · have hrOut : r ∈ outstandingL allL enum st.corrected_errors :=
        (mem_outstandingL _ _ _ _).mpr
          ⟨hrAll, hrUser, by simpa using hold⟩
      obtain ⟨p, hp, hkey⟩ := hcovL r hrOut
      have : s1.corrected_errors.contains (logicKey r) = true := by
        rw [← hkey]
        exact hmem p hp
      rw [this] at hrNot
      cases hrNot
  refine ⟨hpend, hmem, houtC, houtL, ?_⟩
  rw [houtC, houtL]
  have hcomp : (st.all_corrections_data.filter explanationComplete).length =
      (outstandingC allC enum st.corrected_errors).length +
        (outstandingL allL enum st.corrected_errors).length :=
    completed_eq_total_of_valid _ _ _ hval
  have hinvalid : (validate_all_corrections s1.all_corrections_data [] []).1 = false := by
    unfold validate_all_corrections
    rw [validateScan_eq]
    simp only [List.length_nil, Nat.add_zero, hpend]
    have : (st.all_corrections_data.filter explanationComplete).length ≠ 0 := by
      omega
    simpa using this
  rw [saveHandler_eq_of_invalid s1 [] [] enum date2 ts2 writeOk2 hinvalid]

/-- C2 amended witness: the concrete one-row scenario. -/
theorem c2_failed_write_amended_witness :
    outstandingC [exC] ("u".toList) [constraintKey exC] = [] ∧
    (⟨[constraintKey exC], [exPend]⟩ : SessionState).corrected_errors.contains
      exPend.error_key = true := by
  have h := c2_failed_write_amended ⟨[], [exPend]⟩ [exC] [] ("u".toList) [] [] [] []
    true ⟨[constraintKey exC], [exPend]⟩ (by decide) (by decide) (by decide)
    (by decide) (by decide)
  exact ⟨h.2.2.1, h.2.1 exPend (by decide)⟩

/-- C8: after a save whose validation passes and whose ledger write
succeeds, every committed key (the key of each pending entry) is in the
resolved set of the new state, and the outstanding computations for the same
enumerator against that resolved set contain no row carrying a committed
key. -/
theorem c8_committed_resolved (st : SessionState) (allC : List ConstraintRow)
    (allL : List LogicRow) (enum date ts : Str)
    (hval : (validate_all_corrections st.all_corrections_data
        (outstandingC allC enum st.corrected_errors)
        (outstandingL allL enum st.corrected_errors)).1 = true) :
    ∀ p ∈ st.all_corrections_data,
      (saveHandler st (outstandingC allC enum st.corrected_errors)
          (outstandingL allL enum st.corrected_errors) enum date ts
          true).1.corrected_errors.contains p.error_key = true ∧
      (∀ r ∈ outstandingC allC enum
          (saveHandler st (outstandingC allC enum st.corrected_errors)
            (outstandingL allL enum st.corrected_errors) enum date ts
            true).1.corrected_errors,
        constraintKey r ≠ p.error_key) ∧
      (∀ r ∈ outstandingL allL enum
          (saveHandler st (outstandingC allC enum st.corrected_errors)
            (outstandingL allL enum st.corrected_errors) enum date ts
            true).1.corrected_errors,
        logicKey r ≠ p.error_key) := by
  intro p hp
  have hne : st.all_corrections_data ≠ [] := by
    intro hnil
    rw [hnil] at hp
    cases hp
  rw [saveHandler_eq_of_valid st _ _ enum date ts true hval hne]
  simp only []
  have hcont : (st.all_corrections_data.foldl (fun a q => addKey a q.error_key)
      st.corrected_errors).contains p.error_key = true :=
    contains_foldl_addKey_of_mem _ _ _ hp
  refine ⟨hcont, ?_, ?_⟩
  · intro r hr heq
    have hno := ((mem_outstandingC _ _ _ _).mp hr).2.2
    rw [heq, hcont] at hno
    cases hno
  · intro r hr heq
    have hno := ((mem_outstandingL _ _ _ _).mp hr).2.2
    rw [heq, hcont] at hno
    cases hno

/-- C8 witness: the one-row scenario with a successful write. -/
theorem c8_committed_resolved_witness :
    (saveHandler ⟨[], [exPend]⟩ (outstandingC [exC] ("u".toList) [])
        (outstandingL [] ("u".toList) []) ("u".toList) [] []
        true).1.corrected_errors.contains exPend.error_key = true ∧
    outstandingC [exC] ("u".toList)
      (saveHandler ⟨[], [exPend]⟩ (outstandingC [exC] ("u".toList) [])
        (outstandingL [] ("u".toList) []) ("u".toList) [] []
        true).1.corrected_errors = [] := by
  have h := c8_committed_resolved ⟨[], [exPend]⟩ [exC] [] ("u".toList) [] []
    (by decide) exPend (by decide)
  exact ⟨h.1, by decide⟩

/-- C9 counterexample: a reachable session state in which a pending entry
survives for a key that is in the resolved set — obtained by rendering one
constraint error, filling it in and saving while the ledger write fails. -/
theorem c9_counterexample :
    Reachable [exC] [] ⟨[constraintKey exC], [exPend]⟩ ∧
    exPend ∈ (⟨[constraintKey exC], [exPend]⟩ : SessionState).all_corrections_data ∧
    (⟨[constraintKey exC], [exPend]⟩ : SessionState).corrected_errors.contains
      exPend.error_key = true := by
  refine ⟨?_, by decide, by decide⟩
  have h := @Reachable.saveClick [exC] [] ⟨[], []⟩ ("u".toList) (fun _ => 7)
    (fun _ => "fixed".toList) [] [] false (@Reachable.init [exC] [])
  have e : (saveHandler
      (renderEntries ⟨[], []⟩ [exC] [] ("u".toList) (fun _ => 7)
        (fun _ => "fixed".toList))
      (outstandingC [exC] ("u".toList) []) (outstandingL [] ("u".toList) [])
      ("u".toList) [] [] false).1 = ⟨[constraintKey exC], [exPend]⟩ := by decide
  rwa [e] at h

/-- C9 amended: pending entries can outlive visibility — after a failed
write they persist for keys already in the resolved set, and entries of a
previously selected enumerator are never removed.  What does hold: a save
whose validation passes and whose write succeeds clears the whole pending
map, so no entry survives a successful commit. -/
theorem c9_pending_cleared_amended (st : SessionState)
    (outC : List ConstraintRow) (outL : List LogicRow) (enum date ts : Str)
    (hval : (validate_all_corrections st.all_corrections_data outC outL).1 = true) :
    (saveHandler st outC outL enum date ts true).1.all_corrections_data = [] := by
  cases hd : st.all_corrections_data with
  | nil =>
    rw [hd] at hval
    simp [saveHandler, hval, hd]
  | cons p rest =>
    rw [saveHandler_eq_of_valid st outC outL enum date ts true hval
      (by rw [hd]; intro h; cases h)]
    simp

/-- C9 amended witness: the successful-save instance of the scenario. -/
theorem c9_pending_cleared_amended_witness :
    (saveHandler ⟨[], [exPend]⟩ [exC] [] ("u".toList) [] []
      true).1.all_corrections_data = [] :=
  c9_pending_cleared_amended ⟨[], [exPend]⟩ [exC] [] ("u".toList) [] [] (by decide)

/-- C10: rendering a logic error is undefined (raises) as soon as either the
reported value or the Troster Value fails integer coercion, because both
int() calls and the difference are unguarded; on parsable inputs the form
shows the difference and accepts corrected values in [0, 2 * max(reported,
reference)]; the constraint path, whose coercions sit inside try/except,
renders an output for every row. -/
theorem c10_logic_render (d : LogicRow) :
    ((pyInt d.value = none ∨ pyInt d.trosterValue = none) → renderLogic d = none) ∧
    (∀ fv tv : Int, pyInt d.value = some fv → pyInt d.trosterValue = some tv →
      renderLogic d = some (fv - tv, 0, max fv tv * 2, fv)) ∧
    (∀ r : ConstraintRow, (renderConstraint r).isSome = true) := by
  refine ⟨?_, ?_, fun r => rfl⟩
  · intro h
    unfold renderLogic
    rcases h with h | h
    · rw [h]
    · rw [h]
      cases pyInt d.value <;> rfl
  · intro fv tv h1 h2
    unfold renderLogic
    rw [h1, h2]

/-- C10 witness: an unparsable reported value makes the logic form raise;
parsable values 40 and 25 show difference 15 and bounds [0, 80]. -/
theorem c10_logic_render_witness :
    pyInt exLbad.value = none ∧
    renderLogic exLbad = none ∧
    renderLogic exL = some (15, 0, 80, 40) := by
  refine ⟨by decide, (c10_logic_render exLbad).1 (Or.inl (by decide)), ?_⟩
  have h := (c10_logic_render exL).2.1 40 25 (by decide) (by decide)
  exact h.trans (by decide)

/-- C1: evaluation of the ledger save at the failing input — the store
already holds one record and a batch of one new record is saved with a
successful PUT.  The written table content is just the new batch; the
previously persisted record is dropped, against the append semantics the
specification states. -/
theorem c1_overwrite_eval :
    save_corrections_to_github (some ⟨[exRecOld], 7⟩) [exRecNew] true =
      (some ⟨[exRecNew], 8⟩, true) ∧
    ([exRecNew] : List CorrectionRecord) ≠ [exRecOld] ++ [exRecNew] := by decide

end HFC
